import Mathlib

/-!
# gopher-scrape: a verification development of `main.go`

The program fetches the README of a seed GitHub repository, picks one preview
image, extracts every link that matches `GITHUB_REGEXP`, and then processes each
linked repository the same way.

Strings are modelled as lists of Unicode characters (`Str`), byte slices as lists
of bytes.  Library calls whose behaviour is outside the repository (HTTP
transport, markdown rendering, HTML querying, URL parsing) are fields of an
environment `Env`; small library functions with a fixed documented behaviour
(`strings.Contains`, `strings.TrimSpace`, `filepath.Ext`, `strconv.FormatUint`,
`crc32.ChecksumIEEE`, `regexp` matching, `os.WriteFile`) are written out.
-/

namespace GopherScrape

/-- Go `string`, as a list of characters. -/
abbrev Str := List Char

/-- Go `[]byte`. -/
abbrev Bytes := List (Fin 256)

/-! ## Regular expressions (the fragment of Go `regexp` used by `GITHUB_REGEXP`) -/

/-- Abstract syntax of the regular expressions used by the program, read under
the flag `(?i)`. -/
inductive Regex where
  /-- A literal character, matched case-insensitively. -/
  | char (c : Char)
  /-- The pattern `.`: any character except line feed. -/
  | dot
  /-- A character class given by its members. -/
  | set (cs : List Char)
  /-- The pattern `$` without the multi-line flag: end of text. -/
  | eot
  /-- Concatenation. -/
  | seq (a b : Regex)
  /-- Alternation, left alternative preferred. -/
  | alt (a b : Regex)
  /-- Capturing group number `n`. -/
  | group (n : Nat) (r : Regex)
  /-- Non-greedy repetition `r+?`. -/
  | plusLazy (r : Regex)

/-- One way of matching a regular expression at the start of an input: the
characters consumed, the rest of the input, and the capture groups closed on
the way (in the order they were closed). -/
structure Match where
  consumed : Str
  rest : Str
  caps : List (Nat × Str)
deriving DecidableEq, Repr

/-- Sequencing of two partial matches. -/
def Match.andThen (m₁ m₂ : Match) : Match :=
  ⟨m₁.consumed ++ m₂.consumed, m₂.rest, m₁.caps ++ m₂.caps⟩

/-- Case-insensitive comparison of a pattern character `c` with an input
character `d`: `d` is in the simple-folding orbit of `c`.  For the ASCII letters
other than `k` and `s` the orbit is the lower/upper pair, and for the other
ASCII characters it is the character alone. -/
def foldEq (c d : Char) : Bool := d == c.toLower || d == c.toUpper

/-- Non-greedy iteration: all ways of matching `step` one or more times, fewer
iterations first.  The fuel bounds the number of iterations. -/
def lazyIter (step : Str → List Match) : Nat → Str → List Match
  | 0, _ => []
  | fuel + 1, inp =>
    (step inp).flatMap fun m => m :: (lazyIter step fuel m.rest).map m.andThen

/-- All matches of a regular expression at the start of the input, in the
priority order of a backtracking matcher (the order in which Go `regexp`
prefers them: leftmost-first). -/
def Regex.run : Regex → Str → List Match
  | .char c, inp =>
    match inp with
    | d :: t => if foldEq c d then [⟨[d], t, []⟩] else []
    | [] => []
  | .dot, inp =>
    match inp with
    | d :: t => if d = '\n' then [] else [⟨[d], t, []⟩]
    | [] => []
  | .set cs, inp =>
    match inp with
    | d :: t => if d ∈ cs then [⟨[d], t, []⟩] else []
    | [] => []
  | .eot, inp =>
    match inp with
    | [] => [⟨[], [], []⟩]
    | _ :: _ => []
  | .seq a b, inp => (a.run inp).flatMap fun m₁ => (b.run m₁.rest).map m₁.andThen
  | .alt a b, inp => a.run inp ++ b.run inp
  | .group n r, inp => (r.run inp).map fun m => ⟨m.consumed, m.rest, m.caps ++ [(n, m.consumed)]⟩
  | .plusLazy r, inp => lazyIter r.run (inp.length + 1) inp

/-- The text of capture group `n` in a match: the last time it was closed, or
the empty string when it did not take part. -/
def Match.capture (m : Match) (n : Nat) : Str :=
  match m.caps.reverse.lookup n with
  | some s => s
  | none => []

/-- The leftmost match: the first start position at which the expression
matches, and the preferred match there. -/
def Regex.find (re : Regex) : Str → Option Match
  | [] => (re.run []).head?
  | c :: t =>
    match re.run (c :: t) with
    | m :: _ => some m
    | [] => re.find t

/-- Go `(*Regexp).FindStringSubmatch` for an expression with two capture
groups: the whole match followed by the two groups, or the empty slice when
there is no match. -/
def Regex.FindStringSubmatch (re : Regex) (s : Str) : List Str :=
  match re.find s with
  | some m => [m.consumed, m.capture 1, m.capture 2]
  | none => []

/-- A sequence of literal characters. -/
def Regex.lits : List Char → Regex → Regex
  | [], k => k
  | c :: cs, k => .seq (.char c) (Regex.lits cs k)

/-- The class `[\s/?]`; in Go `\s` is `[\t\n\f\r ]`. -/
def delimClass : List Char := ['\t', '\n', '\x0c', '\r', ' ', '/', '?']

/-- The part of `GITHUB_REGEXP` after the host: `(.+?)\/(.+?)(?:[\s/?]|$)`. -/
def GITHUB_TAIL : Regex :=
  .seq (.group 1 (.plusLazy .dot))
    (.seq (.char '/')
      (.seq (.group 2 (.plusLazy .dot))
        (.alt (.set delimClass) .eot)))

/-- The link pattern: `(?i)github\.com\/(.+?)\/(.+?)(?:[\s/?]|$)`. -/
def GITHUB_REGEXP : Regex :=
  Regex.lits "github.com/".toList GITHUB_TAIL

/-! ## Library functions with a fixed behaviour -/

/-- Go `strings.HasPrefix`. -/
def hasPrefix : Str → Str → Bool
  | _, [] => true
  | [], _ :: _ => false
  | c :: s, d :: p => c == d && hasPrefix s p

/-- Go `strings.Contains`: `substr` occurs in `s` (byte-wise, case-sensitive). -/
def strContains : Str → Str → Bool
  | [], substr => hasPrefix [] substr
  | c :: s, substr => hasPrefix (c :: s) substr || strContains s substr

/-- Go `unicode.IsSpace`. -/
def isSpace (c : Char) : Bool :=
  c ∈ ['\t', '\n', '\x0b', '\x0c', '\r', ' ', '\u0085', '\u00a0',
       '\u1680', '\u2028', '\u2029', '\u202f', '\u205f', '\u3000']
    || (0x2000 ≤ c.toNat && c.toNat ≤ 0x200a)

/-- Go `strings.TrimSpace`. -/
def TrimSpace (s : Str) : Str :=
  ((s.dropWhile isSpace).reverse.dropWhile isSpace).reverse

/-- The backward scan of Go `filepath.Ext` (Unix): `rev` is the part of the
path not yet visited, last character first; `acc` is the part already visited. -/
def extScan : Str → Str → Str
  | [], _ => []
  | c :: rev, acc =>
    if c = '/' then [] else if c = '.' then '.' :: acc else extScan rev (c :: acc)

/-- Go `filepath.Ext`: the suffix beginning at the final dot in the final
element of the path; empty if there is no dot. -/
def filepath_Ext (path : Str) : Str := extScan path.reverse []

/-- The digit table of Go `strconv`: `0123456789abcdefghijklmnopqrstuvwxyz`. -/
def digitOf (d : Nat) : Char :=
  if d < 10 then Char.ofNat (48 + d) else Char.ofNat (87 + d)

/-- The digit loop of `strconv.FormatUint`: most significant digit first. -/
def formatDigits (base : Nat) : Nat → Nat → Str
  | 0, _ => []
  | fuel + 1, u =>
    if base ≤ u then formatDigits base fuel (u / base) ++ [digitOf (u % base)]
    else [digitOf u]

/-- Go `strconv.FormatUint(i, base)` for a `uint64` value `i`. -/
def FormatUint (i : Nat) (base : Nat) : Str := formatDigits base 64 (i % 2 ^ 64)

/-- One bit of the reflected CRC-32 register update, polynomial `0xedb88320`. -/
def crcShift (crc : Nat) : Nat :=
  if crc % 2 = 1 then (crc / 2) ^^^ 0xedb88320 else crc / 2

/-- The CRC-32 register after one more input byte. -/
def crcByte (crc : Nat) (b : Fin 256) : Nat :=
  crcShift (crcShift (crcShift (crcShift (crcShift (crcShift (crcShift (crcShift
    (crc ^^^ b.val))))))))

/-- Go `crc32.ChecksumIEEE`. -/
def ChecksumIEEE (data : Bytes) : Nat :=
  (data.foldl crcByte 0xffffffff) ^^^ 0xffffffff

/-! ## The file system seen by `os.WriteFile` -/

/-- Errors, by the call that reports them. -/
inductive Err where
  | parse | transport | read | render | query | notExist | isDirectory | denied
deriving DecidableEq, Repr

/-- A file system state below the working directory of the program.  A location
is the list of its path components from the working directory; `dirs` are the
directories that exist (the working directory itself, `[]`, always does),
`files` the regular files with their content, and `writable` tells whether the
operating system lets a file be created or truncated at a location
(permissions, free space, name length).  Symbolic links are not modelled, and
`..` at the working directory stays there. -/
structure FS where
  dirs : List (List Str)
  files : List (List Str × Bytes)
  writable : List Str → Bool

/-- The `/`-separated components of a path, empty ones included; `cur` is the
component being read. -/
def splitSlash : Str → Str → List Str
  | [], cur => [cur]
  | c :: t, cur => if c = '/' then cur :: splitSlash t [] else splitSlash t (cur ++ [c])

/-- Path resolution through directories, from the location `cur`: empty
components (repeated slashes) and `.` stay in place, `..` goes to the parent,
any other component must name an existing directory. -/
def walk (dirs : List (List Str)) : List Str → List Str → Option (List Str)
  | cur, [] => some cur
  | cur, c :: cs =>
    if c = [] ∨ c = ".".toList then walk dirs cur cs
    else if c = "..".toList then walk dirs cur.dropLast cs
    else if cur ++ [c] ∈ dirs then walk dirs (cur ++ [c]) cs
    else none

/-- The location a path names as a regular file: every component but the last
is resolved as a directory, and the last one names the file in it.  A path that
ends in `/`, `.` or `..`, or that names an existing directory, is not a file. -/
def resolve (dirs : List (List Str)) (name : Str) : Except Err (List Str) :=
  let comps := splitSlash name []
  let base := comps.getLast?.getD []
  if base = [] ∨ base = ".".toList ∨ base = "..".toList then .error .isDirectory
  else
    match walk dirs [] comps.dropLast with
    | none => .error .notExist
    | some dir => if dir ++ [base] ∈ dirs then .error .isDirectory else .ok (dir ++ [base])

/-- The content of the regular file a path names, if there is one. -/
def FS.read (fs : FS) (name : Str) : Option Bytes :=
  match resolve fs.dirs name with
  | .ok target => fs.files.lookup target
  | .error _ => none

/-- Go `os.WriteFile(name, data, 0644)`: create or truncate the file and write
`data`.  It does not create missing directories: the call fails when a
directory on the path does not exist, when the path names a directory, or when
the operating system refuses the write. -/
def os_WriteFile (name : Str) (data : Bytes) (fs : FS) : Option Err × FS :=
  match resolve fs.dirs name with
  | .error err => (some err, fs)
  | .ok target =>
    if !fs.writable target then (some .denied, fs)
    else (none, { fs with files := (target, data) :: fs.files.filter (fun f => f.1 != target) })

/-! ## Data model -/

/-- The identifier of a repository. -/
structure GithubRepo where
  User : Str
  Repo : Str
deriving DecidableEq, Repr

/-- Go `url.URL`: the fields the program depends on. -/
structure URL where
  Scheme : Str
  Host : Str
  Path : Str
  RawQuery : Str
deriving DecidableEq, Repr

/-- Go `(*url.URL).IsAbs`. -/
def URL.IsAbs (u : URL) : Bool := u.Scheme != []

/-- Go `html.Attribute`. -/
structure Attribute where
  Key : Str
  Val : Str
deriving DecidableEq, Repr

/-- Go `html.Node`: the attributes are all the program reads. -/
structure Node where
  Attr : List Attribute
deriving DecidableEq, Repr

/-- A parsed document: `Find sel` is `doc.Find(sel).Nodes`. -/
structure Document where
  Find : Str → List Node

/-- An HTTP response: `Body` is the outcome of `io.ReadAll(res.Body)`. -/
structure Response where
  Body : Except Err Bytes

/-- The external collaborators of the program. -/
structure Env where
  /-- Go `url.Parse`. -/
  url_Parse : Str → Except Err URL
  /-- Go `(*url.URL).String`. -/
  url_String : URL → Str
  /-- Go `(*url.URL).ResolveReference`, base first. -/
  url_ResolveReference : URL → URL → URL
  /-- Go `http.Get`. -/
  http_Get : Str → Except Err Response
  /-- The goldmark conversion with unsafe HTML enabled. -/
  goldmark_Convert : Bytes → Except Err Bytes
  /-- Go `goquery.NewDocumentFromReader`. -/
  goquery_NewDocument : Bytes → Except Err Document

/-! ## The program -/

def IMAGE_IGNORE_LIST : List Str :=
  [ "badge.svg".toList,
    "img.shields.io".toList,
    "/badges/".toList,
    "/badge/".toList,
    "/sponsors/".toList,
    "producthunt.com/widgets".toList,
    "status.png".toList,
    "status.svg".toList,
    "circleci.com".toList,
    "awesome.re".toList ]

def getGitHubReadme (env : Env) (repo : GithubRepo) : Except Err (Bytes × URL) :=
  match env.url_Parse
      ("https://raw.githubusercontent.com/".toList ++ repo.User ++ "/".toList ++ repo.Repo
        ++ "/refs/heads/main/README.md".toList) with
  | .error err => .error err
  | .ok readmeUrl =>
    match env.http_Get (env.url_String readmeUrl) with
    | .error err => .error err
    | .ok res =>
      match res.Body with
      | .error err => .error err
      | .ok data => .ok (data, readmeUrl)

def containsNeedles : List Str → Str → Bool
  | [], _ => false
  | needle :: needles, v => if strContains v needle then true else containsNeedles needles v

def getNodeAttr (node : Node) (key : Str) : Attribute × Bool :=
  go node.Attr
where
  go : List Attribute → Attribute × Bool
    | [] => (⟨[], []⟩, false)
    | attr :: attrs => if attr.Key = key then (attr, true) else go attrs

/-- The file name built in `downloadImage` from the repository, the image URL
and the downloaded bytes. -/
def imageFileName (repo : GithubRepo) (imageUrl : URL) (data : Bytes) : Str :=
  let sum := ChecksumIEEE data
  let hex := FormatUint sum 16
  let ext := filepath_Ext imageUrl.Path
  repo.User ++ "_".toList ++ repo.Repo ++ "_".toList ++ hex ++ ext

def downloadImage (env : Env) (repo : GithubRepo) (imageUrl : URL) (fs : FS) :
    Option Err × FS :=
  match env.http_Get (env.url_String imageUrl) with
  | .error err => (some err, fs)
  | .ok res =>
    match res.Body with
    | .error err => (some err, fs)
    | .ok data => os_WriteFile ("./downloads/".toList ++ imageFileName repo imageUrl data) data fs

/-- The image loop of `doRepoReadme`: the URL handed to `go downloadImage`, if
any. -/
def imageLoop (env : Env) (readmeUrl : URL) : List Node → Option URL
  | [] => none
  | node :: nodes =>
    let (attr, found) := getNodeAttr node "src".toList
    if !found then imageLoop env readmeUrl nodes
    else
      match env.url_Parse (TrimSpace attr.Val) with
      | .error _ => imageLoop env readmeUrl nodes
      | .ok imageUrl =>
        let imageUrl := if !imageUrl.IsAbs then env.url_ResolveReference readmeUrl imageUrl
                        else imageUrl
        if containsNeedles IMAGE_IGNORE_LIST (env.url_String imageUrl) then none
        else some imageUrl

/-- The anchor loop of `doRepoReadme`: `githubRepos` after the remaining nodes. -/
def anchorLoop : List Node → List GithubRepo → List GithubRepo
  | [], githubRepos => githubRepos
  | node :: nodes, githubRepos =>
    let (attr, found) := getNodeAttr node "href".toList
    if !found then anchorLoop nodes githubRepos
    else
      let url := TrimSpace attr.Val
      let submatches := GITHUB_REGEXP.FindStringSubmatch url
      if submatches.length > 0 then
        anchorLoop nodes (githubRepos ++ [⟨submatches.getD 1 [], submatches.getD 2 []⟩])
      else anchorLoop nodes githubRepos

/-- What one call of `doRepoReadme` does: the two values it returns, the
repositories on which it called `getGitHubReadme`, and the image download it
started, if any. -/
structure ReadmeRun where
  repos : List GithubRepo
  err : Option Err
  fetched : List GithubRepo
  dispatched : Option URL

def doRepoReadme (env : Env) (repo : GithubRepo) : ReadmeRun :=
  match getGitHubReadme env repo with
  | .error _ => ⟨[], none, [repo], none⟩
  | .ok (data, readmeUrl) =>
    match env.goldmark_Convert data with
    | .error _ => ⟨[], none, [repo], none⟩
    | .ok buf =>
      match env.goquery_NewDocument buf with
      | .error _ => ⟨[], none, [repo], none⟩
      | .ok doc =>
        ⟨anchorLoop (doc.Find "a".toList) [], none, [repo],
          imageLoop env readmeUrl (doc.Find "img".toList)⟩

/-- How a run of `main` ends. -/
inductive Outcome where
  | completed
  | panicked (err : Err)
deriving DecidableEq, Repr

/-- The observable behaviour of a run of `main`. -/
structure Run where
  /-- The repositories on which `getGitHubReadme` was called, in order. -/
  fetched : List GithubRepo
  /-- The image downloads started, in order. -/
  downloads : List (GithubRepo × URL)
  /-- The errors printed by the loop. -/
  printed : List Err
  outcome : Outcome

/-- The downloads started by one call of `doRepoReadme`. -/
def ReadmeRun.downloads (repo : GithubRepo) (r : ReadmeRun) : List (GithubRepo × URL) :=
  match r.dispatched with
  | some u => [(repo, u)]
  | none => []

/-- The loop of `main` over the repositories linked from the seed. -/
def mainLoop (env : Env) : List GithubRepo → Run → Run
  | [], run => run
  | repo :: repos, run =>
    let r := doRepoReadme env repo
    mainLoop env repos
      { fetched := run.fetched ++ r.fetched
        downloads := run.downloads ++ r.downloads repo
        printed := run.printed ++ r.err.toList
        outcome := run.outcome }

/-- The body of `main` for a given seed. -/
def mainFrom (env : Env) (awesomeRepo : GithubRepo) : Run :=
  let r := doRepoReadme env awesomeRepo
  match r.err with
  | some err => ⟨r.fetched, r.downloads awesomeRepo, [], .panicked err⟩
  | none => mainLoop env r.repos ⟨r.fetched, r.downloads awesomeRepo, [], .completed⟩

/-- The seed of `main`. -/
def awesomeRepo : GithubRepo := ⟨"avelino".toList, "awesome-go".toList⟩

def main (env : Env) : Run :=
  mainFrom env awesomeRepo

/-! ## Concrete environments used to evaluate the program -/

/-- A URL parser that keeps the whole text as the path. -/
def plainParse (s : Str) : Except Err URL := .ok ⟨[], [], s, []⟩

/-- An environment in which every README is one anchor pointing back at the
seed repository. -/
def selfLinkEnv : Env where
  url_Parse := plainParse
  url_String u := u.Path
  url_ResolveReference _ r := r
  http_Get _ := .ok ⟨.ok []⟩
  goldmark_Convert b := .ok b
  goquery_NewDocument _ := .ok ⟨fun sel =>
    if sel = "a".toList then
      [⟨[⟨"href".toList, "https://github.com/avelino/awesome-go".toList⟩]⟩]
    else []⟩

/-- The README bytes served by `chainEnv`: `0` for the seed, `1` for `o/a`. -/
def chainGet (url : Str) : Except Err Response :=
  if url = "https://raw.githubusercontent.com/avelino/awesome-go/refs/heads/main/README.md".toList
  then .ok ⟨.ok [0]⟩
  else if url = "https://raw.githubusercontent.com/o/a/refs/heads/main/README.md".toList
  then .ok ⟨.ok [1]⟩
  else .error .transport

/-- The documents of `chainEnv`: the seed links to `o/a`, and `o/a` links to
`o/b`. -/
def chainDoc (buf : Bytes) : Except Err Document :=
  if buf = [0] then
    .ok ⟨fun sel => if sel = "a".toList then
      [⟨[⟨"href".toList, "https://github.com/o/a".toList⟩]⟩] else []⟩
  else if buf = [1] then
    .ok ⟨fun sel => if sel = "a".toList then
      [⟨[⟨"href".toList, "https://github.com/o/b".toList⟩]⟩] else []⟩
  else .error .query

/-- An environment with the discovery graph seed → `o/a` → `o/b`, in which
`o/b` cannot be fetched. -/
def chainEnv : Env where
  url_Parse := plainParse
  url_String u := u.Path
  url_ResolveReference _ r := r
  http_Get := chainGet
  goldmark_Convert b := .ok b
  goquery_NewDocument := chainDoc

/-- An environment without network: every request fails. -/
def offlineEnv : Env where
  url_Parse := plainParse
  url_String u := u.Path
  url_ResolveReference _ r := r
  http_Get _ := .error .transport
  goldmark_Convert b := .ok b
  goquery_NewDocument _ := .error .query

/-- A document with two anchors, to `o/a` and to `o/b`. -/
def seedOnlyDoc : Document :=
  ⟨fun sel => if sel = "a".toList then
      [⟨[⟨"href".toList, "https://github.com/o/a".toList⟩]⟩,
       ⟨[⟨"href".toList, "https://github.com/o/b".toList⟩]⟩] else []⟩

/-- An environment in which only the seed can be fetched; its README links to
`o/a` and to `o/b`. -/
def seedOnlyEnv : Env where
  url_Parse := plainParse
  url_String u := u.Path
  url_ResolveReference _ r := r
  http_Get url :=
    if url = "https://raw.githubusercontent.com/avelino/awesome-go/refs/heads/main/README.md".toList
    then .ok ⟨.ok [0]⟩ else .error .transport
  goldmark_Convert b := .ok b
  goquery_NewDocument _ := .ok seedOnlyDoc

/-! ## Definitions used to state and prove the properties -/

/-- The resolved URL of an `img` element: defined when the element has a `src`
attribute whose trimmed value parses as a URL; a relative URL is resolved
against the URL of the README. -/
def imageCandidate (env : Env) (readmeUrl : URL) (node : Node) : Option URL :=
  match node.Attr.find? (fun attr => attr.Key = "src".toList) with
  | none => none
  | some attr =>
    match env.url_Parse (TrimSpace attr.Val) with
    | .error _ => none
    | .ok u => some (if u.IsAbs then u else env.url_ResolveReference readmeUrl u)

/-- The base-16 rendering of a number: its digits in base 16, most significant
first, written with the characters `0`–`9` and `a`–`f`; zero is `0`. -/
def hexRender (n : Nat) : Str :=
  if n = 0 then "0".toList
  else (Nat.digits 16 n).reverse.map fun d => "0123456789abcdef".toList.getD d '0'

/-- An environment in which every request returns the single byte `a`. -/
def oneByteEnv : Env where
  url_Parse := plainParse
  url_String u := u.Path
  url_ResolveReference _ r := r
  http_Get _ := .ok ⟨.ok [97]⟩
  goldmark_Convert b := .ok b
  goquery_NewDocument _ := .error .query

/-- A file system without any directory or file. -/
def emptyFS : FS := ⟨[], [], fun _ => true⟩

/-- A file system whose only directory is the output directory. -/
def downloadsFS : FS := ⟨[["downloads".toList]], [], fun _ => true⟩

/-- The matches of `.+?` in priority order, each extended on the left by `acc`. -/
def dotRuns (acc : Str) : Str → List Match
  | [] => []
  | c :: t => if c = '\n' then [] else ⟨acc ++ [c], t, []⟩ :: dotRuns (acc ++ [c]) t

/-- The preferred match of `(.+?)` as group `n` followed by a continuation `k`,
where `acc` has been consumed by the group already. -/
def lazyScan (n : Nat) (k : Str → Option Match) (acc : Str) : Str → Option Match
  | [] => none
  | c :: t =>
    if c = '\n' then none
    else
      match k t with
      | some m₂ => some (Match.andThen ⟨acc ++ [c], t, [(n, acc ++ [c])]⟩ m₂)
      | none => lazyScan n k (acc ++ [c]) t

/-- The preferred match of `(?:[\s/?]|$)`. -/
def termK : Str → Option Match
  | [] => some ⟨[], [], []⟩
  | d :: t => if d ∈ delimClass then some ⟨[d], t, []⟩ else none

/-- The preferred match of `(.+?)(?:[\s/?]|$)`, the group being number 2. -/
def nameK (s : Str) : Option Match := lazyScan 2 termK [] s

/-- The preferred match of `\/(.+?)(?:[\s/?]|$)`. -/
def slashK : Str → Option Match
  | [] => none
  | d :: t => if d = '/' then (nameK t).map (Match.andThen ⟨[d], t, []⟩) else none

/-- The preferred match of `GITHUB_TAIL`. -/
def tailK (s : Str) : Option Match := lazyScan 1 slashK [] s

/-- The preferred match of the literals `cs` followed by `GITHUB_TAIL`. -/
def hostK : List Char → Str → Option Match
  | [], s => tailK s
  | _ :: _, [] => none
  | c :: cs, d :: t =>
    if foldEq c d then (hostK cs t).map (Match.andThen ⟨[d], t, []⟩) else none

/-! # Properties -/

/-! ## The crawl -/

theorem doRepoReadme_err (env : Env) (repo : GithubRepo) :
    (doRepoReadme env repo).err = none := by
  unfold doRepoReadme
  split
  · rfl
  · split
    · rfl
    · split <;> rfl

theorem doRepoReadme_fetched (env : Env) (repo : GithubRepo) :
    (doRepoReadme env repo).fetched = [repo] := by
  unfold doRepoReadme
  split
  · rfl
  · split
    · rfl
    · split <;> rfl

theorem mainLoop_fetched (env : Env) (repos : List GithubRepo) (run : Run) :
    (mainLoop env repos run).fetched = run.fetched ++ repos := by
  induction repos generalizing run with
  | nil => simp [mainLoop]
  | cons repo repos ih => simp [mainLoop, ih, doRepoReadme_fetched]

theorem mainLoop_outcome (env : Env) (repos : List GithubRepo) (run : Run) :
    (mainLoop env repos run).outcome = run.outcome := by
  induction repos generalizing run with
  | nil => simp [mainLoop]
  | cons repo repos ih => simp [mainLoop, ih]

theorem mainLoop_printed (env : Env) (repos : List GithubRepo) (run : Run) :
    (mainLoop env repos run).printed = run.printed := by
  induction repos generalizing run with
  | nil => simp [mainLoop]
  | cons repo repos ih => simp [mainLoop, ih, doRepoReadme_err]

theorem mainFrom_fetched (env : Env) (seed : GithubRepo) :
    (mainFrom env seed).fetched = seed :: (doRepoReadme env seed).repos := by
  simp [mainFrom, doRepoReadme_err, mainLoop_fetched, doRepoReadme_fetched]

theorem mainFrom_outcome (env : Env) (seed : GithubRepo) :
    (mainFrom env seed).outcome = .completed := by
  simp [mainFrom, doRepoReadme_err, mainLoop_outcome]

/-- C1, as stated, fails: when the README of the seed links back to the seed,
`main` calls the fetcher on the seed twice. -/
theorem fetch_twice_counterexample :
    (main selfLinkEnv).fetched = [awesomeRepo, awesomeRepo]
      ∧ ¬ (main selfLinkEnv).fetched.Nodup := by
  decide

/-- C1, amended: the fetcher is called on the seed and then once per anchor of
the seed README that matches the link pattern, in document order; this sequence
is free of repetitions exactly when those links are pairwise distinct and none
of them is the seed. -/
theorem fetched_nodup_iff (env : Env) (seed : GithubRepo) :
    (mainFrom env seed).fetched = seed :: (doRepoReadme env seed).repos
      ∧ ((mainFrom env seed).fetched.Nodup
          ↔ seed ∉ (doRepoReadme env seed).repos ∧ (doRepoReadme env seed).repos.Nodup) := by
  rw [mainFrom_fetched]
  exact ⟨rfl, List.nodup_cons⟩

/-- C2, as stated, fails: with the links seed → `o/a` → `o/b`, the repository
`o/b` is reachable from the seed and is not fetched. -/
theorem no_recursion_counterexample :
    (doRepoReadme chainEnv awesomeRepo).repos = [⟨"o".toList, "a".toList⟩]
      ∧ (doRepoReadme chainEnv ⟨"o".toList, "a".toList⟩).repos = [⟨"o".toList, "b".toList⟩]
      ∧ (⟨"o".toList, "b".toList⟩ : GithubRepo) ∉ (main chainEnv).fetched := by
  decide

/-- C2, amended: the repositories fetched by a run are the seed and the
repositories linked directly from the README of the seed; the links found in
the other READMEs are not followed. -/
theorem fetched_iff_direct_link (env : Env) (seed r : GithubRepo) :
    r ∈ (mainFrom env seed).fetched ↔ r = seed ∨ r ∈ (doRepoReadme env seed).repos := by
  rw [mainFrom_fetched, List.mem_cons]

/-- C3: the code at a seed whose README cannot be fetched: the fetch fails,
`doRepoReadme` returns a nil error, and `main` completes after that one fetch
instead of reaching its panic branch. -/
theorem seed_failure_completes :
    getGitHubReadme offlineEnv awesomeRepo = .error .transport
      ∧ (doRepoReadme offlineEnv awesomeRepo).err = none
      ∧ (main offlineEnv).outcome = .completed
      ∧ (main offlineEnv).fetched = [awesomeRepo] :=
  ⟨rfl, by decide, by decide, by decide⟩

/-- C4: when the README of the seed is fetched, rendered and parsed, `main`
completes whatever happens to the linked repositories, and calls the fetcher on
every link extracted from the seed README, in order. -/
theorem partial_failure_isolation (env : Env) (seed : GithubRepo) (data buf : Bytes)
    (readmeUrl : URL) (doc : Document)
    (hfetch : getGitHubReadme env seed = .ok (data, readmeUrl))
    (hrender : env.goldmark_Convert data = .ok buf)
    (hparse : env.goquery_NewDocument buf = .ok doc) :
    (mainFrom env seed).outcome = .completed
      ∧ (mainFrom env seed).fetched = seed :: anchorLoop (doc.Find "a".toList) []
      ∧ ∀ r ∈ anchorLoop (doc.Find "a".toList) [], r ∈ (mainFrom env seed).fetched := by
  have hrepos : (doRepoReadme env seed).repos = anchorLoop (doc.Find "a".toList) [] := by
    simp [doRepoReadme, hfetch, hrender, hparse]
  refine ⟨mainFrom_outcome env seed, ?_, ?_⟩
  · rw [mainFrom_fetched, hrepos]
  · intro r hr
    rw [mainFrom_fetched, hrepos]
    exact List.mem_cons_of_mem _ hr

/-- C4 at a concrete run: the two repositories linked from the seed both fail
to fetch, the run completes and both were tried. -/
theorem partial_failure_isolation_witness :
    getGitHubReadme seedOnlyEnv ⟨"o".toList, "a".toList⟩ = .error .transport
      ∧ (mainFrom seedOnlyEnv awesomeRepo).outcome = .completed
      ∧ (mainFrom seedOnlyEnv awesomeRepo).fetched
          = awesomeRepo :: anchorLoop (seedOnlyDoc.Find "a".toList) []
      ∧ ∀ r ∈ anchorLoop (seedOnlyDoc.Find "a".toList) [],
          r ∈ (mainFrom seedOnlyEnv awesomeRepo).fetched :=
  ⟨rfl, partial_failure_isolation seedOnlyEnv awesomeRepo [0] [0]
    ⟨[], [], "https://raw.githubusercontent.com/avelino/awesome-go/refs/heads/main/README.md".toList, []⟩
    seedOnlyDoc rfl rfl rfl⟩

/-! ## Image selection -/

theorem hasPrefix_iff (s p : Str) : hasPrefix s p = true ↔ ∃ t, p ++ t = s := by
  induction p generalizing s with
  | nil => cases s <;> simp [hasPrefix]
  | cons d p ih =>
    cases s with
    | nil => simp [hasPrefix]
    | cons c s =>
      simp only [hasPrefix, Bool.and_eq_true, beq_iff_eq, ih, List.cons_append, List.cons.injEq]
      constructor
      · rintro ⟨rfl, t, rfl⟩
        exact ⟨t, rfl, rfl⟩
      · rintro ⟨t, rfl, rfl⟩
        exact ⟨rfl, t, rfl⟩

theorem strContains_iff (s substr : Str) : strContains s substr = true ↔ substr <:+: s := by
  induction s with
  | nil =>
    simp only [strContains, hasPrefix_iff, List.IsInfix]
    constructor
    · rintro ⟨t, h⟩
      exact ⟨[], t, by simpa using h⟩
    · rintro ⟨a, b, h⟩
      simp only [List.append_eq_nil] at h
      exact ⟨[], by simp [h.1.2]⟩
  | cons c s ih =>
    simp only [strContains, Bool.or_eq_true, hasPrefix_iff, ih, List.IsInfix]
    constructor
    · rintro (⟨t, h⟩ | ⟨a, b, h⟩)
      · exact ⟨[], t, by simpa using h⟩
      · exact ⟨c :: a, b, by simp [← h]⟩
    · rintro ⟨a, b, h⟩
      cases a with
      | nil => exact Or.inl ⟨b, by simpa using h⟩
      | cons x a =>
        simp only [List.cons_append, List.cons.injEq] at h
        exact Or.inr ⟨a, b, by simpa using h.2⟩

theorem containsNeedles_iff (needles : List Str) (v : Str) :
    containsNeedles needles v = true ↔ ∃ needle ∈ needles, needle <:+: v := by
  induction needles with
  | nil => simp [containsNeedles]
  | cons needle needles ih =>
    simp only [containsNeedles, List.mem_cons, exists_eq_or_imp, ← strContains_iff]
    by_cases h : strContains v needle = true
    · simp [h]
    · simp [h, ih, strContains_iff]

theorem getNodeAttr_go (key : Str) (attrs : List Attribute) :
    getNodeAttr.go key attrs =
      match attrs.find? (fun attr => attr.Key = key) with
      | some attr => (attr, true)
      | none => (⟨[], []⟩, false) := by
  induction attrs with
  | nil => rfl
  | cons attr attrs ih =>
    by_cases h : attr.Key = key <;> simp [getNodeAttr.go, List.find?, h, ih]

theorem imageLoop_cons (env : Env) (readmeUrl : URL) (node : Node) (nodes : List Node) :
    imageLoop env readmeUrl (node :: nodes) =
      match imageCandidate env readmeUrl node with
      | none => imageLoop env readmeUrl nodes
      | some u =>
        if containsNeedles IMAGE_IGNORE_LIST (env.url_String u) then none else some u := by
  simp only [imageLoop, imageCandidate, getNodeAttr, getNodeAttr_go]
  cases hfind : node.Attr.find? (fun attr => attr.Key = "src".toList) with
  | none => simp
  | some attr =>
    simp only [Bool.not_true, Bool.false_eq_true, if_false]
    cases hparse : env.url_Parse (TrimSpace attr.Val) with
    | error e => simp
    | ok u => cases hab : u.IsAbs <;> simp [hab]

/-- C7: the image loop dispatches at most one image, and the first `img`
element with a `src` attribute that parses as a URL decides: when its resolved
URL contains a marker of `IMAGE_IGNORE_LIST` as a substring nothing is
dispatched, later images included; otherwise exactly that URL is dispatched. -/
theorem imageLoop_first_candidate (env : Env) (readmeUrl : URL) (nodes : List Node) :
    imageLoop env readmeUrl nodes =
      match (nodes.filterMap (imageCandidate env readmeUrl)).head? with
      | none => none
      | some u =>
        if ∃ marker ∈ IMAGE_IGNORE_LIST, marker <:+: env.url_String u then none else some u := by
  induction nodes with
  | nil => rfl
  | cons node nodes ih =>
    rw [imageLoop_cons]
    cases hc : imageCandidate env readmeUrl node with
    | none => simp [List.filterMap_cons, hc, ih]
    | some u =>
      simp only [List.filterMap_cons, hc, List.head?_cons]
      by_cases hn : containsNeedles IMAGE_IGNORE_LIST (env.url_String u) = true
      · rw [if_pos hn, if_pos ((containsNeedles_iff _ _).1 hn)]
      · rw [if_neg hn, if_neg (fun h => hn ((containsNeedles_iff _ _).2 h))]

/-! ## File names -/

theorem digitOf_hex : ∀ d, d < 16 → digitOf d = "0123456789abcdef".toList.getD d '0' := by
  decide

theorem digitOf_ne_dot : ∀ d, d < 16 → digitOf d ≠ '.' := by
  decide

theorem digitOf_inj : ∀ d, d < 16 → ∀ e, e < 16 → digitOf d = digitOf e → d = e := by
  decide

theorem formatDigits_digits (fuel u : Nat) (hpos : 0 < u) (hlt : u < 16 ^ fuel) :
    formatDigits 16 fuel u = (Nat.digits 16 u).reverse.map digitOf := by
  induction fuel generalizing u with
  | zero => simp at hlt; omega
  | succ fuel ih =>
    unfold formatDigits
    split
    · rename_i hge
      have hdiv : u / 16 < 16 ^ fuel := by
        rw [Nat.div_lt_iff_lt_mul (by norm_num)]
        rw [pow_succ] at hlt
        exact hlt
      have hdpos : 0 < u / 16 := Nat.div_pos hge (by norm_num)
      rw [ih (u / 16) hdpos hdiv, Nat.digits_def' (by norm_num) hpos]
      simp
    · rename_i hlt16
      rw [Nat.digits_of_lt 16 u (by omega) (by omega)]
      simp

theorem formatDigits_ne_dot (fuel u : Nat) : ∀ c ∈ formatDigits 16 fuel u, c ≠ '.' := by
  induction fuel generalizing u with
  | zero => simp [formatDigits]
  | succ fuel ih =>
    unfold formatDigits
    split
    · intro c hc
      rcases List.mem_append.1 hc with h | h
      · exact ih _ c h
      · rw [List.mem_singleton.1 h]
        exact digitOf_ne_dot _ (Nat.mod_lt _ (by norm_num))
    · rename_i hlt16
      intro c hc
      rw [List.mem_singleton.1 hc]
      exact digitOf_ne_dot _ (by omega)

theorem formatDigits_ne_nil (fuel u : Nat) : formatDigits 16 (fuel + 1) u ≠ [] := by
  unfold formatDigits
  split <;> simp

theorem formatDigits_inj (fuel u v : Nat) (hu : u < 16 ^ fuel) (hv : v < 16 ^ fuel)
    (h : formatDigits 16 fuel u = formatDigits 16 fuel v) : u = v := by
  induction fuel generalizing u v with
  | zero => simp at hu hv; omega
  | succ fuel ih =>
    have hdiv : ∀ w, w < 16 ^ (fuel + 1) → w / 16 < 16 ^ fuel := by
      intro w hw
      rw [Nat.div_lt_iff_lt_mul (by norm_num)]
      rw [pow_succ] at hw
      exact hw
    have hlong : ∀ w, 16 ≤ w → w < 16 ^ (fuel + 1) →
        2 ≤ (formatDigits 16 fuel (w / 16) ++ [digitOf (w % 16)]).length := by
      intro w hw hlt
      cases fuel with
      | zero => simp at hlt; omega
      | succ f =>
        have := formatDigits_ne_nil f (w / 16)
        have hlen : 0 < (formatDigits 16 (f + 1) (w / 16)).length := List.length_pos.2 this
        simp only [List.length_append, List.length_singleton]
        omega
    unfold formatDigits at h
    by_cases h1 : 16 ≤ u <;> by_cases h2 : 16 ≤ v
    · rw [if_pos h1, if_pos h2] at h
      have hh := List.append_inj' h rfl
      have hq := ih _ _ (hdiv u hu) (hdiv v hv) hh.1
      have hr := digitOf_inj _ (Nat.mod_lt u (by norm_num)) _ (Nat.mod_lt v (by norm_num))
        (by simpa using hh.2)
      omega
    · rw [if_pos h1, if_neg h2] at h
      have := hlong u h1 hu
      rw [h] at this
      simp at this
    · rw [if_neg h1, if_pos h2] at h
      have := hlong v h2 hv
      rw [← h] at this
      simp at this
    · rw [if_neg h1, if_neg h2] at h
      exact digitOf_inj _ (by omega) _ (by omega) (by simpa using h)

set_option maxRecDepth 8192 in
/-- The standard check value of CRC-32: the checksum of the ASCII digits
`123456789` is `cbf43926`. -/
theorem ChecksumIEEE_check :
    ChecksumIEEE [49, 50, 51, 52, 53, 54, 55, 56, 57] = 0xcbf43926 := by
  decide

theorem crcShift_lt (crc : Nat) (h : crc < 2 ^ 32) : crcShift crc < 2 ^ 32 := by
  unfold crcShift
  split
  · exact Nat.xor_lt_two_pow (by omega) (by norm_num)
  · omega

theorem crcByte_lt (crc : Nat) (b : Fin 256) (h : crc < 2 ^ 32) : crcByte crc b < 2 ^ 32 := by
  unfold crcByte
  have hb : b.val < 2 ^ 32 := lt_trans b.isLt (by norm_num)
  have h0 : crc ^^^ b.val < 2 ^ 32 := Nat.xor_lt_two_pow h hb
  exact crcShift_lt _ (crcShift_lt _ (crcShift_lt _ (crcShift_lt _ (crcShift_lt _
    (crcShift_lt _ (crcShift_lt _ (crcShift_lt _ h0)))))))

theorem foldl_crcByte_lt (data : Bytes) (crc : Nat) (h : crc < 2 ^ 32) :
    data.foldl crcByte crc < 2 ^ 32 := by
  induction data generalizing crc with
  | nil => simpa using h
  | cons b data ih => exact ih _ (crcByte_lt crc b h)

theorem ChecksumIEEE_lt (data : Bytes) : ChecksumIEEE data < 2 ^ 32 :=
  Nat.xor_lt_two_pow (foldl_crcByte_lt data _ (by norm_num)) (by norm_num)

theorem FormatUint_hexRender (n : Nat) (h : n < 2 ^ 32) : FormatUint n 16 = hexRender n := by
  have hmod : n % 2 ^ 64 = n := Nat.mod_eq_of_lt (lt_trans h (by norm_num))
  unfold FormatUint hexRender
  rw [hmod]
  by_cases h0 : n = 0
  · subst h0
    decide
  · rw [if_neg h0, formatDigits_digits 64 n (by omega) (lt_trans h (by norm_num))]
    apply List.map_congr_left
    intro d hd
    exact digitOf_hex d (Nat.digits_lt_base (by norm_num) (List.mem_reverse.1 hd))

theorem FormatUint_inj (m n : Nat) (hm : m < 2 ^ 32) (hn : n < 2 ^ 32)
    (h : FormatUint m 16 = FormatUint n 16) : m = n := by
  unfold FormatUint at h
  rw [Nat.mod_eq_of_lt (lt_trans hm (by norm_num)),
    Nat.mod_eq_of_lt (lt_trans hn (by norm_num))] at h
  exact formatDigits_inj 64 m n (lt_trans hm (by norm_num)) (lt_trans hn (by norm_num)) h

theorem split_at_slash (l : Str) :
    ∃ e d, l = e ++ d ∧ '/' ∉ e ∧ (d = [] ∨ d.head? = some '/') := by
  induction l with
  | nil => exact ⟨[], [], rfl, by simp, Or.inl rfl⟩
  | cons c l ih =>
    by_cases hc : c = '/'
    · exact ⟨[], c :: l, rfl, by simp, Or.inr (by simp [hc])⟩
    · obtain ⟨e, d, hl, he, hd⟩ := ih
      refine ⟨c :: e, d, by simp [hl], ?_, hd⟩
      simp only [List.mem_cons, not_or]
      exact ⟨fun h => hc h.symm, he⟩

theorem extScan_spec (rev acc : Str) :
    ∃ e d, rev = e ++ d ∧ '/' ∉ e ∧ (d = [] ∨ d.head? = some '/')
      ∧ (('.' ∉ e ∧ extScan rev acc = [])
          ∨ ∃ stem suf, e = suf ++ '.' :: stem ∧ '.' ∉ suf
              ∧ extScan rev acc = '.' :: (suf.reverse ++ acc)) := by
  induction rev generalizing acc with
  | nil => exact ⟨[], [], rfl, by simp, Or.inl rfl, Or.inl ⟨by simp, rfl⟩⟩
  | cons c rev ih =>
    by_cases hs : c = '/'
    · exact ⟨[], c :: rev, rfl, by simp, Or.inr (by simp [hs]),
        Or.inl ⟨by simp, by simp [extScan, hs]⟩⟩
    · by_cases hd : c = '.'
      · obtain ⟨e, d, hl, he, hdd⟩ := split_at_slash rev
        refine ⟨c :: e, d, by simp [hl], ?_, hdd, Or.inr ⟨e, [], by simp [hd], by simp, ?_⟩⟩
        · simp only [List.mem_cons, not_or]
          exact ⟨fun h => hs h.symm, he⟩
        · simp [extScan, hd]
      · obtain ⟨e, d, hl, he, hdd, hext⟩ := ih (c :: acc)
        refine ⟨c :: e, d, by simp [hl], ?_, hdd, ?_⟩
        · simp only [List.mem_cons, not_or]
          exact ⟨fun h => hs h.symm, he⟩
        · rcases hext with ⟨hnd, hnil⟩ | ⟨stem, suf, hst, hsuf, hres⟩
          · left
            refine ⟨?_, by simp [extScan, hs, hd, hnil]⟩
            simp only [List.mem_cons, not_or]
            exact ⟨fun h => hd h.symm, hnd⟩
          · right
            refine ⟨stem, c :: suf, by simp [hst], ?_, by simp [extScan, hs, hd, hres]⟩
            simp only [List.mem_cons, not_or]
            exact ⟨fun h => hd h.symm, hsuf⟩

theorem filepath_Ext_spec (path : Str) :
    ∃ dir elem, path = dir ++ elem ∧ '/' ∉ elem ∧ (dir = [] ∨ dir.getLast? = some '/')
      ∧ (('.' ∉ elem ∧ filepath_Ext path = [])
          ∨ ∃ stem suf, elem = stem ++ '.' :: suf ∧ '.' ∉ suf
              ∧ filepath_Ext path = '.' :: suf) := by
  obtain ⟨e, d, hl, he, hd, hext⟩ := extScan_spec path.reverse []
  refine ⟨d.reverse, e.reverse, ?_, by simpa using he, ?_, ?_⟩
  · have := congrArg List.reverse hl
    simpa using this
  · rcases hd with h | h
    · exact Or.inl (by simp [h])
    · exact Or.inr (by simpa [List.getLast?_reverse] using h)
  · rcases hext with ⟨hnd, hnil⟩ | ⟨stem, suf, hst, hsuf, hres⟩
    · exact Or.inl ⟨by simpa using hnd, hnil⟩
    · refine Or.inr ⟨stem.reverse, suf.reverse, by simp [hst], by simpa using hsuf, ?_⟩
      simpa [filepath_Ext] using hres

theorem filepath_Ext_shape (path : Str) :
    filepath_Ext path = [] ∨ ∃ suf, filepath_Ext path = '.' :: suf := by
  obtain ⟨_, _, _, _, _, h⟩ := filepath_Ext_spec path
  rcases h with ⟨_, h⟩ | ⟨_, suf, _, _, h⟩
  · exact Or.inl h
  · exact Or.inr ⟨suf, h⟩

theorem filepath_Ext_preview (dir : Str) :
    filepath_Ext (dir ++ "preview.PNG".toList) = ".PNG".toList := by
  simp [filepath_Ext, extScan]

/-- C8: the file name is `User_Repo_` followed by the base-16 rendering of the
CRC-32 of the bytes and by the extension, where the extension is the part of
the last `/`-separated element of the URL path from its last dot on (empty when
that element has no dot); the query string of the URL plays no part, and a path
ending in `preview.PNG` gives a name ending in `.PNG` whatever the query. -/
theorem imageFileName_spec (repo : GithubRepo) (imageUrl : URL) (data : Bytes) :
    (∃ dir elem ext,
        imageUrl.Path = dir ++ elem ∧ '/' ∉ elem ∧ (dir = [] ∨ dir.getLast? = some '/')
        ∧ (('.' ∉ elem ∧ ext = [])
            ∨ ∃ stem suf, elem = stem ++ '.' :: suf ∧ '.' ∉ suf ∧ ext = '.' :: suf)
        ∧ imageFileName repo imageUrl data
            = repo.User ++ "_".toList ++ repo.Repo ++ "_".toList
                ++ hexRender (ChecksumIEEE data) ++ ext)
      ∧ (∀ query : Str,
          imageFileName repo { imageUrl with RawQuery := query } data
            = imageFileName repo imageUrl data)
      ∧ (∀ scheme host dir query : Str,
          ".PNG".toList <:+
            imageFileName repo ⟨scheme, host, dir ++ "preview.PNG".toList, query⟩ data) := by
  refine ⟨?_, fun _ => rfl, ?_⟩
  · obtain ⟨dir, elem, hp, he, hd, hext⟩ := filepath_Ext_spec imageUrl.Path
    refine ⟨dir, elem, filepath_Ext imageUrl.Path, hp, he, hd, ?_, ?_⟩
    · rcases hext with ⟨h1, h2⟩ | ⟨stem, suf, h1, h2, h3⟩
      · exact Or.inl ⟨h1, h2⟩
      · exact Or.inr ⟨stem, suf, h1, h2, h3⟩
    · simp only [imageFileName, FormatUint_hexRender _ (ChecksumIEEE_lt data)]
  · intro scheme host dir query
    simp only [imageFileName, filepath_Ext_preview]
    exact List.suffix_append _ _

/-- Two strings of dot-free characters, each followed by nothing or by a
part that starts with a dot, are equal when the concatenations are. -/
theorem stem_eq_of_append_eq (h₁ h₂ e₁ e₂ : Str)
    (hd₁ : ∀ c ∈ h₁, c ≠ '.') (hd₂ : ∀ c ∈ h₂, c ≠ '.')
    (he₁ : e₁ = [] ∨ ∃ suf, e₁ = '.' :: suf) (he₂ : e₂ = [] ∨ ∃ suf, e₂ = '.' :: suf)
    (h : h₁ ++ e₁ = h₂ ++ e₂) : h₁ = h₂ := by
  induction h₁ generalizing h₂ with
  | nil =>
    cases h₂ with
    | nil => rfl
    | cons c h₂ =>
      exfalso
      have hc := hd₂ c (List.mem_cons_self _ _)
      rcases he₁ with rfl | ⟨suf, rfl⟩
      · simp at h
      · simp only [List.nil_append, List.cons_append, List.cons.injEq] at h
        exact hc h.1.symm
  | cons a h₁ ih =>
    cases h₂ with
    | nil =>
      exfalso
      have ha := hd₁ a (List.mem_cons_self _ _)
      rcases he₂ with rfl | ⟨suf, rfl⟩
      · simp at h
      · simp only [List.nil_append, List.cons_append, List.cons.injEq] at h
        exact ha h.1
    | cons c h₂ =>
      simp only [List.cons_append, List.cons.injEq] at h
      rw [h.1, ih h₂ (fun x hx => hd₁ x (List.mem_cons_of_mem _ hx))
        (fun x hx => hd₂ x (List.mem_cons_of_mem _ hx)) h.2]

/-- C9, as stated, fails: two stores whose digests differ (`e8b7be43` for the
byte `a`, `0` for the empty content) and whose derived paths are equal. -/
theorem distinct_digest_same_path_counterexample :
    ChecksumIEEE [97] ≠ ChecksumIEEE []
      ∧ "./downloads/".toList
            ++ imageFileName ⟨"u".toList, "r_0.x".toList⟩ ⟨[], [], "/img".toList, []⟩ [97]
          = "./downloads/".toList
            ++ imageFileName ⟨"u".toList, "r".toList⟩ ⟨[], [], "/img.x_e8b7be43".toList, []⟩ [] := by
  decide

/-- Two strings that agree after an underscore-free part and an underscore
agree part by part. -/
theorem underscore_split (a b x y : Str) (ha : '_' ∉ a) (hb : '_' ∉ b)
    (h : a ++ '_' :: x = b ++ '_' :: y) : a = b ∧ x = y := by
  induction a generalizing b with
  | nil =>
    cases b with
    | nil => exact ⟨rfl, by simpa using h⟩
    | cons c b =>
      exfalso
      simp only [List.nil_append, List.cons_append, List.cons.injEq] at h
      exact hb (by rw [← h.1]; exact List.mem_cons_self _ _)
  | cons c a ih =>
    cases b with
    | nil =>
      exfalso
      simp only [List.nil_append, List.cons_append, List.cons.injEq] at h
      exact ha (by rw [h.1]; exact List.mem_cons_self _ _)
    | cons d b =>
      simp only [List.cons_append, List.cons.injEq] at h
      obtain ⟨hab, hxy⟩ := ih b (fun hm => ha (List.mem_cons_of_mem _ hm))
        (fun hm => hb (List.mem_cons_of_mem _ hm)) h.2
      exact ⟨by rw [h.1, hab], hxy⟩

/-- C9, amended: for two image stores whose content digests differ, and whose
repositories are the same or have owners and names without the character `_`,
the derived file paths differ. -/
theorem distinct_digest_distinct_path (repo₁ repo₂ : GithubRepo) (url₁ url₂ : URL)
    (bytes₁ bytes₂ : Bytes)
    (hrepo : repo₁ = repo₂
      ∨ ('_' ∉ repo₁.User ∧ '_' ∉ repo₁.Repo ∧ '_' ∉ repo₂.User ∧ '_' ∉ repo₂.Repo))
    (hne : ChecksumIEEE bytes₁ ≠ ChecksumIEEE bytes₂) :
    "./downloads/".toList ++ imageFileName repo₁ url₁ bytes₁
      ≠ "./downloads/".toList ++ imageFileName repo₂ url₂ bytes₂ := by
  intro h
  apply hne
  have hsep : "_".toList = ['_'] := rfl
  simp only [imageFileName, List.append_assoc, List.append_cancel_left_eq, hsep,
    List.singleton_append] at h
  have htail : FormatUint (ChecksumIEEE bytes₁) 16 ++ filepath_Ext url₁.Path
      = FormatUint (ChecksumIEEE bytes₂) 16 ++ filepath_Ext url₂.Path := by
    rcases hrepo with rfl | ⟨hu₁, hr₁, hu₂, hr₂⟩
    · simpa using h
    · exact (underscore_split _ _ _ _ hr₁ hr₂ (underscore_split _ _ _ _ hu₁ hu₂ h).2).2
  have hstem := stem_eq_of_append_eq _ _ _ _
    (formatDigits_ne_dot 64 _) (formatDigits_ne_dot 64 _)
    (filepath_Ext_shape url₁.Path) (filepath_Ext_shape url₂.Path) htail
  exact FormatUint_inj _ _ (ChecksumIEEE_lt bytes₁) (ChecksumIEEE_lt bytes₂) hstem

/-- C9, amended, at a concrete pair of stores of two different repositories. -/
theorem distinct_digest_distinct_path_witness :
    ((⟨"u".toList, "r".toList⟩ : GithubRepo) = ⟨"u".toList, "s".toList⟩
        ∨ ('_' ∉ "u".toList ∧ '_' ∉ "r".toList ∧ '_' ∉ "u".toList ∧ '_' ∉ "s".toList))
      ∧ ChecksumIEEE [97] ≠ ChecksumIEEE []
      ∧ "./downloads/".toList
            ++ imageFileName ⟨"u".toList, "r".toList⟩ ⟨[], [], "/a.png".toList, []⟩ [97]
          ≠ "./downloads/".toList
            ++ imageFileName ⟨"u".toList, "s".toList⟩ ⟨[], [], "/b.png".toList, []⟩ [] :=
  ⟨Or.inr (by decide), by decide,
    distinct_digest_distinct_path ⟨"u".toList, "r".toList⟩ ⟨"u".toList, "s".toList⟩ _ _ _ _
      (Or.inr (by decide)) (by decide)⟩

/-! ## Storing an image -/

theorem splitSlash_ne_nil (t cur : Str) : splitSlash t cur ≠ [] := by
  induction t generalizing cur with
  | nil => simp [splitSlash]
  | cons c t ih =>
    unfold splitSlash
    split
    · simp
    · exact ih _

theorem splitSlash_of_not_mem (a cur : Str) (ha : '/' ∉ a) : splitSlash a cur = [cur ++ a] := by
  induction a generalizing cur with
  | nil => simp [splitSlash]
  | cons c a ih =>
    have hc : c ≠ '/' := fun h => ha (by simp [h])
    rw [splitSlash, if_neg hc, ih _ (fun hm => ha (List.mem_cons_of_mem _ hm))]
    simp

theorem splitSlash_append_slash (a t cur : Str) (ha : '/' ∉ a) :
    splitSlash (a ++ '/' :: t) cur = (cur ++ a) :: splitSlash t [] := by
  induction a generalizing cur with
  | nil => simp [splitSlash]
  | cons c a ih =>
    have hc : c ≠ '/' := fun h => ha (by simp [h])
    rw [List.cons_append, splitSlash, if_neg hc, ih _ (fun hm => ha (List.mem_cons_of_mem _ hm))]
    simp

theorem splitSlash_replicate (k : Nat) (t : Str) :
    splitSlash (List.replicate k '/' ++ t) [] = List.replicate k [] ++ splitSlash t [] := by
  induction k with
  | zero => simp
  | succ k ih => simp [List.replicate_succ, splitSlash, ih]

theorem splitSlash_downloads (f : Str) :
    splitSlash ("./downloads/".toList ++ f) []
      = ".".toList :: "downloads".toList :: splitSlash f [] := by
  have h : "./downloads/".toList ++ f
      = ".".toList ++ '/' :: ("downloads".toList ++ '/' :: f) := rfl
  rw [h, splitSlash_append_slash _ _ _ (by decide), splitSlash_append_slash _ _ _ (by decide)]
  rfl

theorem walk_replicate (dirs : List (List Str)) (cur : List Str) (k : Nat) :
    walk dirs cur (List.replicate k []) = some cur := by
  induction k with
  | zero => simp [walk]
  | succ k ih => simp [List.replicate_succ, walk, ih]

theorem walk_downloads_none (dirs : List (List Str)) (cs : List Str)
    (h : ["downloads".toList] ∉ dirs) :
    walk dirs [] (".".toList :: "downloads".toList :: cs) = none := by
  have h1 : ¬ ("downloads".toList = [] ∨ "downloads".toList = ".".toList) := by decide
  have h2 : ¬ "downloads".toList = "..".toList := by decide
  rw [walk, if_pos (Or.inr rfl), walk, if_neg h1, if_neg h2, List.nil_append, if_neg h]

theorem resolve_downloads_error (dirs : List (List Str)) (f : Str)
    (h : ["downloads".toList] ∉ dirs) :
    ∃ err, resolve dirs ("./downloads/".toList ++ f) = .error err := by
  unfold resolve
  simp only [splitSlash_downloads]
  split
  · exact ⟨_, rfl⟩
  · have hd : (".".toList :: "downloads".toList :: splitSlash f []).dropLast
        = ".".toList :: "downloads".toList :: (splitSlash f []).dropLast := by
      rw [List.dropLast_cons_of_ne_nil (by simp),
        List.dropLast_cons_of_ne_nil (splitSlash_ne_nil f [])]
    rw [hd, walk_downloads_none dirs _ h]
    exact ⟨_, rfl⟩

theorem resolve_downloads_ok (dirs : List (List Str)) (k : Nat) (base : Str)
    (hdir : ["downloads".toList] ∈ dirs) (hbase : '/' ∉ base)
    (hne : ¬ (base = [] ∨ base = ".".toList ∨ base = "..".toList))
    (hfile : ["downloads".toList, base] ∉ dirs) :
    resolve dirs ("./downloads/".toList ++ (List.replicate k '/' ++ base))
      = .ok ["downloads".toList, base] := by
  have hcomps : splitSlash ("./downloads/".toList ++ (List.replicate k '/' ++ base)) []
      = (".".toList :: "downloads".toList :: List.replicate k []) ++ [base] := by
    rw [splitSlash_downloads, splitSlash_replicate, splitSlash_of_not_mem _ _ hbase]
    simp
  have h1 : ¬ ("downloads".toList = [] ∨ "downloads".toList = ".".toList) := by decide
  have h2 : ¬ "downloads".toList = "..".toList := by decide
  have hwalk : walk dirs [] (".".toList :: "downloads".toList :: List.replicate k [])
      = some ["downloads".toList] := by
    rw [walk, if_pos (Or.inr rfl), walk, if_neg h1, if_neg h2, List.nil_append, if_pos hdir,
      walk_replicate]
  have hlast : ((".".toList :: "downloads".toList :: List.replicate k []) ++ [base]).getLast?.getD []
      = base := by
    rw [List.getLast?_concat]
    rfl
  have hdrop : ((".".toList :: "downloads".toList :: List.replicate k []) ++ [base]).dropLast
      = ".".toList :: "downloads".toList :: List.replicate k [] := List.dropLast_concat
  have hcat : ["downloads".toList] ++ [base] = ["downloads".toList, base] := rfl
  show (if _ then _ else _) = _
  rw [hcomps, hlast, if_neg hne, hdrop, hwalk]
  show (if _ then _ else _) = _
  rw [hcat, if_neg hfile]

theorem underscore_mem_imageFileName (repo : GithubRepo) (imageUrl : URL) (data : Bytes) :
    '_' ∈ imageFileName repo imageUrl data := by
  have hsep : "_".toList = ['_'] := rfl
  simp [imageFileName, hsep]

theorem lookup_write (name : List Str) (data : Bytes) (files : List (List Str × Bytes)) :
    List.lookup name ((name, data) :: files.filter (fun f => f.1 != name)) = some data := by
  simp [List.lookup]

theorem os_WriteFile_dirs (name : Str) (data : Bytes) (fs : FS) :
    (os_WriteFile name data fs).2.dirs = fs.dirs := by
  unfold os_WriteFile
  split
  · rfl
  · split <;> rfl

/-- C10, as stated, fails: when `./downloads` does not exist, `downloadImage`
returns an error for successfully downloaded bytes, and afterwards the
directory still does not exist and no file was written. -/
theorem missing_directory_counterexample :
    oneByteEnv.http_Get (oneByteEnv.url_String ⟨[], [], "/a.png".toList, []⟩) = .ok ⟨.ok [97]⟩
      ∧ (downloadImage oneByteEnv ⟨"u".toList, "r".toList⟩ ⟨[], [], "/a.png".toList, []⟩
          emptyFS).1 = some .notExist
      ∧ ["downloads".toList] ∉
          (downloadImage oneByteEnv ⟨"u".toList, "r".toList⟩ ⟨[], [], "/a.png".toList, []⟩
            emptyFS).2.dirs
      ∧ (downloadImage oneByteEnv ⟨"u".toList, "r".toList⟩ ⟨[], [], "/a.png".toList, []⟩
          emptyFS).2.files = [] := by
  refine ⟨rfl, ?_, ?_, ?_⟩ <;> decide

/-- C10, amended: `downloadImage` never creates a directory: the directories
after the call are those before it, and when `./downloads` does not exist the
call returns an error.  In a file system state in which `./downloads` exists,
the derived file name is, after any leading slashes, a single path component
`base`, the location `./downloads/base` is not a directory and the operating
system accepts the write, `downloadImage` returns no error for successfully
downloaded bytes, and afterwards the output directory exists and the derived
path names a file in it whose content is exactly those bytes. -/
theorem downloadImage_stores (env : Env) (repo : GithubRepo) (imageUrl : URL) (fs : FS) :
    (downloadImage env repo imageUrl fs).2.dirs = fs.dirs
      ∧ (["downloads".toList] ∉ fs.dirs → (downloadImage env repo imageUrl fs).1 ≠ none)
      ∧ ∀ (data : Bytes) (k : Nat) (base : Str),
          env.http_Get (env.url_String imageUrl) = .ok ⟨.ok data⟩ →
          ["downloads".toList] ∈ fs.dirs →
          imageFileName repo imageUrl data = List.replicate k '/' ++ base →
          '/' ∉ base →
          ["downloads".toList, base] ∉ fs.dirs →
          fs.writable ["downloads".toList, base] = true →
          (downloadImage env repo imageUrl fs).1 = none
            ∧ ["downloads".toList] ∈ (downloadImage env repo imageUrl fs).2.dirs
            ∧ (downloadImage env repo imageUrl fs).2.files.lookup ["downloads".toList, base]
                = some data
            ∧ (downloadImage env repo imageUrl fs).2.read
                ("./downloads/".toList ++ imageFileName repo imageUrl data) = some data := by
  refine ⟨?_, ?_, ?_⟩
  · unfold downloadImage
    split
    · rfl
    · split
      · rfl
      · exact os_WriteFile_dirs _ _ _
  · intro hno
    unfold downloadImage
    split
    · simp
    · split
      · simp
      · rename_i data _
        obtain ⟨err, herr⟩ := resolve_downloads_error fs.dirs (imageFileName repo imageUrl data) hno
        rw [os_WriteFile, herr]
        simp
  · intro data k base hget hdir hname hbase hfile hwrite
    have hmem : '_' ∈ base := by
      have h := underscore_mem_imageFileName repo imageUrl data
      rw [hname, List.mem_append] at h
      rcases h with h | h
      · exact absurd (List.eq_of_mem_replicate h) (by decide)
      · exact h
    have hne : ¬ (base = [] ∨ base = ".".toList ∨ base = "..".toList) := by
      rintro (h | h | h) <;> rw [h] at hmem <;> revert hmem <;> decide
    have hres := resolve_downloads_ok fs.dirs k base hdir hbase hne hfile
    have hrun : downloadImage env repo imageUrl fs
        = (none, { fs with files := (["downloads".toList, base], data)
                      :: fs.files.filter (fun f => f.1 != ["downloads".toList, base]) }) := by
      simp only [downloadImage, hget, os_WriteFile, hname, hres, hwrite, Bool.not_true,
        Bool.false_eq_true, if_false]
    rw [hrun]
    refine ⟨rfl, hdir, lookup_write _ _ _, ?_⟩
    simp only [FS.read, hname, hres, lookup_write]

/-- A file name that starts with a slash (owner `/`, as captured from
`github.com///b`) gives the path `./downloads//_b_e8b7be43.png`, which names
the file `_b_e8b7be43.png` of the output directory. -/
theorem downloadImage_leading_slash :
    (downloadImage oneByteEnv ⟨"/".toList, "b".toList⟩ ⟨[], [], "/a.png".toList, []⟩
        downloadsFS).1 = none
      ∧ (downloadImage oneByteEnv ⟨"/".toList, "b".toList⟩ ⟨[], [], "/a.png".toList, []⟩
            downloadsFS).2.files.lookup ["downloads".toList, "_b_e8b7be43.png".toList]
          = some [97] := by
  decide

/-- C10, amended, at a concrete state: the output directory exists and is
empty; the byte `a` is stored as `u_r_e8b7be43.png`. -/
theorem downloadImage_stores_witness :
    (downloadImage oneByteEnv ⟨"u".toList, "r".toList⟩ ⟨[], [], "/a.png".toList, []⟩
        downloadsFS).1 = none
      ∧ ["downloads".toList] ∈
          (downloadImage oneByteEnv ⟨"u".toList, "r".toList⟩ ⟨[], [], "/a.png".toList, []⟩
            downloadsFS).2.dirs
      ∧ (downloadImage oneByteEnv ⟨"u".toList, "r".toList⟩ ⟨[], [], "/a.png".toList, []⟩
            downloadsFS).2.files.lookup ["downloads".toList, "u_r_e8b7be43.png".toList]
          = some [97]
      ∧ (downloadImage oneByteEnv ⟨"u".toList, "r".toList⟩ ⟨[], [], "/a.png".toList, []⟩
          downloadsFS).2.read
          ("./downloads/".toList
            ++ imageFileName ⟨"u".toList, "r".toList⟩ ⟨[], [], "/a.png".toList, []⟩ [97])
          = some [97] :=
  (downloadImage_stores oneByteEnv ⟨"u".toList, "r".toList⟩ ⟨[], [], "/a.png".toList, []⟩
    downloadsFS).2.2 [97] 0 "u_r_e8b7be43.png".toList rfl (by decide) (by decide) (by decide)
    (by decide) rfl

/-! ## The link pattern -/

theorem lazyIter_dot (fuel : Nat) (inp acc : Str) (h : inp.length < fuel) :
    (lazyIter Regex.dot.run fuel inp).map (fun m => (⟨acc ++ m.consumed, m.rest, m.caps⟩ : Match))
      = dotRuns acc inp := by
  induction fuel generalizing inp acc with
  | zero => omega
  | succ fuel ih =>
    cases inp with
    | nil => simp [lazyIter, Regex.run, dotRuns]
    | cons c t =>
      by_cases hc : c = '\n'
      · simp [lazyIter, Regex.run, dotRuns, hc]
      · have hlen : t.length < fuel := by simpa using h
        simp only [lazyIter, Regex.run, hc, if_false, List.flatMap_cons, List.flatMap_nil,
          List.append_nil, List.map_cons, List.map_map, dotRuns, List.cons.injEq, true_and]
        rw [← ih t (acc ++ [c]) hlen]
        apply List.map_congr_left
        intro m _
        simp [Match.andThen]

theorem run_plusLazy_dot (inp : Str) : (Regex.plusLazy .dot).run inp = dotRuns [] inp := by
  have h := lazyIter_dot (inp.length + 1) inp [] (by omega)
  simpa [Regex.run] using h

theorem head_group_scan (n : Nat) (kre : Regex) (acc t : Str) :
    (((dotRuns acc t).map
        (fun m => (⟨m.consumed, m.rest, m.caps ++ [(n, m.consumed)]⟩ : Match))).flatMap
        (fun m₁ => (kre.run m₁.rest).map m₁.andThen)).head?
      = lazyScan n (fun s => (kre.run s).head?) acc t := by
  induction t generalizing acc with
  | nil => simp [dotRuns, lazyScan]
  | cons c t ih =>
    by_cases hc : c = '\n'
    · simp [dotRuns, lazyScan, hc]
    · simp only [dotRuns, hc, if_false, List.map_cons, List.flatMap_cons, List.head?_append,
        List.head?_map, lazyScan, ih, List.nil_append]
      cases (kre.run t).head? <;> simp

theorem head_seq_group (n : Nat) (kre : Regex) (s : Str) :
    ((Regex.seq (.group n (.plusLazy .dot)) kre).run s).head?
      = lazyScan n (fun s => (kre.run s).head?) [] s := by
  rw [← head_group_scan]
  simp only [Regex.run, ← run_plusLazy_dot]

theorem head_term (s : Str) :
    ((Regex.alt (.set delimClass) .eot).run s).head? = termK s := by
  cases s with
  | nil => simp [Regex.run, termK]
  | cons d t => by_cases h : d ∈ delimClass <;> simp [Regex.run, termK, h]

theorem head_name (s : Str) :
    ((Regex.seq (.group 2 (.plusLazy .dot)) (.alt (.set delimClass) .eot)).run s).head?
      = nameK s := by
  rw [head_seq_group, nameK]
  congr 1
  funext x
  exact head_term x

theorem foldEq_slash (d : Char) : foldEq '/' d = true ↔ d = '/' := by
  have h1 : Char.toLower '/' = '/' := by decide
  have h2 : Char.toUpper '/' = '/' := by decide
  simp [foldEq, h1, h2]

theorem head_seq_char (c : Char) (r : Regex) (s : Str) :
    ((Regex.seq (.char c) r).run s).head?
      = match s with
        | [] => none
        | d :: t => if foldEq c d then ((r.run t).head?).map (Match.andThen ⟨[d], t, []⟩)
                    else none := by
  cases s with
  | nil => simp [Regex.run]
  | cons d t => by_cases h : foldEq c d = true <;> simp [Regex.run, h]

theorem head_slash (s : Str) :
    ((Regex.seq (.char '/')
        (.seq (.group 2 (.plusLazy .dot)) (.alt (.set delimClass) .eot))).run s).head?
      = slashK s := by
  rw [head_seq_char]
  cases s with
  | nil => rfl
  | cons d t =>
    by_cases h : d = '/'
    · simp [slashK, h, (foldEq_slash '/').2 rfl, head_name]
    · have : ¬ foldEq '/' d = true := fun hf => h ((foldEq_slash d).1 hf)
      simp [slashK, h, this]

theorem head_tail (s : Str) : (GITHUB_TAIL.run s).head? = tailK s := by
  rw [GITHUB_TAIL, head_seq_group, tailK]
  congr 1
  funext x
  exact head_slash x

theorem head_host (cs : List Char) (s : Str) :
    ((Regex.lits cs GITHUB_TAIL).run s).head? = hostK cs s := by
  induction cs generalizing s with
  | nil => simp [Regex.lits, hostK, head_tail]
  | cons c cs ih =>
    rw [Regex.lits, head_seq_char]
    cases s with
    | nil => rfl
    | cons d t => simp [hostK, ih]

theorem find_nil (re : Regex) : re.find [] = (re.run []).head? := by
  simp [Regex.find]

theorem find_cons (re : Regex) (c : Char) (t : Str) :
    re.find (c :: t) = ((re.run (c :: t)).head?).or (re.find t) := by
  rw [Regex.find]
  cases re.run (c :: t) <;> simp

theorem lazyScan_append (n : Nat) (k : Str → Option Match) (acc a r : Str) (m₂ : Match)
    (ha : a ≠ []) (hnl : '\n' ∉ a) (hk : ∀ c ∈ a, ∀ t, k (c :: t) = none)
    (hr : k r = some m₂) :
    lazyScan n k acc (a ++ r)
      = some (Match.andThen ⟨acc ++ a, r, [(n, acc ++ a)]⟩ m₂) := by
  induction a generalizing acc with
  | nil => exact absurd rfl ha
  | cons c a ih =>
    have hc : c ≠ '\n' := fun h => hnl (by simp [h])
    cases a with
    | nil => simp [lazyScan, hc, hr]
    | cons c₂ a =>
      have hnone : k (c₂ :: (a ++ r)) = none := hk c₂ (by simp) _
      have hrec := ih (acc ++ [c]) (by simp) (fun h => hnl (List.mem_cons_of_mem _ h))
        (fun x hx => hk x (List.mem_cons_of_mem _ hx))
      rw [List.cons_append, lazyScan, if_neg hc, List.cons_append, hnone]
      simpa using hrec

theorem lazyScan_some (n : Nat) (k : Str → Option Match) (acc t : Str) (m : Match)
    (h : lazyScan n k acc t = some m) :
    ∃ p r m₂, p ≠ [] ∧ t = p ++ r ∧ k r = some m₂
      ∧ m = Match.andThen ⟨acc ++ p, r, [(n, acc ++ p)]⟩ m₂ ∧ '\n' ∉ p
      ∧ ∀ p₁ p₂, p = p₁ ++ p₂ → p₁ ≠ [] → p₂ ≠ [] → k (p₂ ++ r) = none := by
  induction t generalizing acc with
  | nil => simp [lazyScan] at h
  | cons c t ih =>
    by_cases hc : c = '\n'
    · simp [lazyScan, hc] at h
    · simp only [lazyScan, hc, if_false] at h
      cases hk : k t with
      | some m₂ =>
        rw [hk] at h
        refine ⟨[c], t, m₂, by simp, rfl, hk, (Option.some.inj h).symm, ?_, ?_⟩
        · simpa using fun hEq : '\n' = c => hc hEq.symm
        · intro p₁ p₂ hp h₁ h₂
          exfalso
          have hlen := congrArg List.length hp
          have l₁ := List.length_pos.2 h₁
          have l₂ := List.length_pos.2 h₂
          simp only [List.length_singleton, List.length_append] at hlen
          omega
      | none =>
        rw [hk] at h
        obtain ⟨p, r, m₂, hp, ht, hkr, hm, hnl, hmin⟩ := ih (acc ++ [c]) h
        refine ⟨c :: p, r, m₂, by simp, by simp [ht], hkr, by simpa using hm, ?_, ?_⟩
        · simp only [List.mem_cons, not_or]
          exact ⟨fun hEq => hc hEq.symm, hnl⟩
        · intro p₁ p₂ hsplit h₁ h₂
          cases p₁ with
          | nil => exact absurd rfl h₁
          | cons x p₁ =>
            simp only [List.cons_append, List.cons.injEq] at hsplit
            cases p₁ with
            | nil =>
              simp only [List.nil_append] at hsplit
              rw [← hsplit.2, ← ht]
              exact hk
            | cons y p₁ => exact hmin (y :: p₁) p₂ hsplit.2 (by simp) h₂

theorem newline_mem_delimClass : '\n' ∈ delimClass := by decide

theorem slash_mem_delimClass : '/' ∈ delimClass := by decide

theorem termK_cons_none (d : Char) (t : Str) : termK (d :: t) = none ↔ d ∉ delimClass := by
  by_cases h : d ∈ delimClass <;> simp [termK, h]

theorem nameScan_isSome (acc : Str) (e : Char) (t : Str) (he : e ≠ '\n') :
    (lazyScan 2 termK acc (e :: t)).isSome = true := by
  induction t generalizing acc e with
  | nil => simp [lazyScan, he, termK]
  | cons d t ih =>
    simp only [lazyScan, he, if_false]
    by_cases hd : d ∈ delimClass
    · simp [termK, hd]
    · have hdn : d ≠ '\n' := fun h => hd (h ▸ newline_mem_delimClass)
      have := ih (acc ++ [e]) d hdn
      simpa [termK, hd, lazyScan, hdn] using this

/-- What the preferred match of `(.+?)(?:[\s/?]|$)` looks like. -/
theorem nameK_some (s : Str) (m : Match) (h : nameK s = some m) :
    ∃ name term, name ≠ [] ∧ s = name ++ term ++ m.rest
      ∧ m.consumed = name ++ term ∧ m.caps = [(2, name)]
      ∧ '\n' ∉ name ∧ (∀ c ∈ name.tail, c ∉ delimClass)
      ∧ ((term = [] ∧ m.rest = []) ∨ ∃ c ∈ delimClass, term = [c]) := by
  obtain ⟨p, r, m₂, hp, ht, hkr, hm, hnl, hmin⟩ := lazyScan_some 2 termK [] s m h
  have hterm : m₂.consumed ++ m₂.rest = r ∧ m₂.caps = []
      ∧ ((m₂.consumed = [] ∧ m₂.rest = []) ∨ ∃ c ∈ delimClass, m₂.consumed = [c]) := by
    cases r with
    | nil =>
      simp only [termK, Option.some.injEq] at hkr
      subst hkr
      simp
    | cons d r =>
      by_cases hd : d ∈ delimClass
      · simp only [termK, hd, if_true, Option.some.injEq] at hkr
        subst hkr
        exact ⟨rfl, rfl, Or.inr ⟨d, hd, rfl⟩⟩
      · simp [termK, hd] at hkr
  refine ⟨p, m₂.consumed, hp, ?_, by simp [hm, Match.andThen], by simp [hm, Match.andThen, hterm.2.1],
    hnl, ?_, ?_⟩
  · rw [ht, hm]
    simp [Match.andThen, hterm.1]
  · intro c hc
    cases p with
    | nil => simp at hc
    | cons x p =>
      simp only [List.tail_cons] at hc
      obtain ⟨p₁, p₂, rfl⟩ := List.append_of_mem hc
      have := hmin (x :: p₁) (c :: p₂) (by simp) (by simp) (by simp)
      exact (termK_cons_none c _).1 (by simpa using this)
  · simpa [hm, Match.andThen] using hterm.2.2

/-- What the preferred match of `GITHUB_TAIL` looks like. -/
theorem tailK_some (s : Str) (m : Match) (h : tailK s = some m) :
    ∃ owner name term, owner ≠ [] ∧ name ≠ []
      ∧ s = owner ++ '/' :: name ++ term ++ m.rest
      ∧ m.consumed = owner ++ '/' :: name ++ term ∧ m.caps = [(1, owner), (2, name)]
      ∧ '\n' ∉ owner ∧ '\n' ∉ name ∧ '/' ∉ owner.tail ∧ (∀ c ∈ name.tail, c ∉ delimClass)
      ∧ ((term = [] ∧ m.rest = []) ∨ ∃ c ∈ delimClass, term = [c]) := by
  obtain ⟨p, r, m₂, hp, ht, hkr, hm, hnl, hmin⟩ := lazyScan_some 1 slashK [] s m h
  cases r with
  | nil => simp [slashK] at hkr
  | cons d r =>
    by_cases hd : d = '/'
    · subst hd
      simp only [slashK, if_true, Option.map_eq_some'] at hkr
      obtain ⟨m₃, hname, hm₂⟩ := hkr
      obtain ⟨name, term, hn, hr, hcons, hcaps, hnnl, hntail, hnterm⟩ := nameK_some r m₃ hname
      have hrest : m.rest = m₃.rest := by simp [hm, ← hm₂, Match.andThen]
      refine ⟨p, name, term, hp, hn, ?_, ?_, ?_, hnl, hnnl, ?_, hntail, ?_⟩
      · rw [ht, hr, hrest]
        simp
      · simp [hm, ← hm₂, Match.andThen, hcons]
      · simp [hm, ← hm₂, Match.andThen, hcaps]
      · intro hmem
        cases p with
        | nil => simp at hmem
        | cons x p =>
          simp only [List.tail_cons] at hmem
          obtain ⟨p₁, p₂, rfl⟩ := List.append_of_mem hmem
          have hnone := hmin (x :: p₁) ('/' :: p₂) (by simp) (by simp) (by simp)
          have hnl₂ : '\n' ∉ p₂ := fun hx => hnl (by simp [hx])
          cases p₂ with
          | nil =>
            have hs := nameScan_isSome [] '/' r (by decide)
            simp only [List.cons_append, List.nil_append, slashK, if_true, Option.map_eq_none',
              nameK] at hnone
            rw [hnone] at hs
            simp at hs
          | cons y p₂ =>
            have hy : y ≠ '\n' := fun hEq => hnl₂ (by simp [hEq])
            have hs := nameScan_isSome [] y (p₂ ++ '/' :: r) hy
            simp only [List.cons_append, slashK, if_true, Option.map_eq_none', nameK] at hnone
            rw [hnone] at hs
            simp at hs
      · rw [hrest]
        exact hnterm
    · simp [slashK, hd] at hkr

theorem foldEq_host (c d : Char) (hc : c ∈ "github.com/".toList) (h : foldEq c d = true) :
    d.toLower = c := by
  simp only [foldEq, Bool.or_eq_true, beq_iff_eq] at h
  simp only [String.toList, List.mem_cons, List.not_mem_nil, or_false] at hc
  rcases hc with rfl | rfl | rfl | rfl | rfl | rfl | rfl | rfl | rfl | rfl | rfl
  all_goals (rcases h with rfl | rfl <;> decide)

theorem hostK_some (cs : List Char) (s : Str) (m : Match)
    (hcs : ∀ c ∈ cs, c ∈ "github.com/".toList) (h : hostK cs s = some m) :
    ∃ host y m₂, s = host ++ y ∧ host.map Char.toLower = cs ∧ tailK y = some m₂
      ∧ m.consumed = host ++ m₂.consumed ∧ m.rest = m₂.rest ∧ m.caps = m₂.caps := by
  induction cs generalizing s m with
  | nil => exact ⟨[], s, m, rfl, rfl, by simpa [hostK] using h, rfl, rfl, rfl⟩
  | cons c cs ih =>
    cases s with
    | nil => simp [hostK] at h
    | cons d t =>
      by_cases hf : foldEq c d = true
      · simp only [hostK, hf, if_true, Option.map_eq_some'] at h
        obtain ⟨m₁, hm₁, hm⟩ := h
        obtain ⟨host, y, m₂, ht, hhost, htail, h1, h2, h3⟩ :=
          ih t m₁ (fun x hx => hcs x (List.mem_cons_of_mem _ hx)) hm₁
        refine ⟨d :: host, y, m₂, by simp [ht], ?_, htail, ?_, ?_, ?_⟩
        · simp [hhost, foldEq_host c d (hcs c (List.mem_cons_self _ _)) hf]
        · simp [← hm, Match.andThen, h1]
        · simp [← hm, Match.andThen, h2]
        · simp [← hm, Match.andThen, h3]
      · simp [hostK, hf] at h

theorem hostK_self (cs : List Char) (y : Str) (hcs : ∀ c ∈ cs, foldEq c c = true) :
    hostK cs (cs ++ y)
      = (tailK y).map fun m => (⟨cs ++ m.consumed, m.rest, m.caps⟩ : Match) := by
  induction cs with
  | nil =>
    simp only [hostK, List.nil_append]
    cases tailK y <;> rfl
  | cons c cs ih =>
    have hc := hcs c (List.mem_cons_self _ _)
    have ih₂ := ih (fun x hx => hcs x (List.mem_cons_of_mem _ hx))
    rw [List.cons_append, hostK, if_pos hc, ih₂]
    cases tailK y <;> simp [Match.andThen]

theorem find_some (re : Regex) (s : Str) (m : Match) (h : re.find s = some m) :
    ∃ pre x, s = pre ++ x ∧ (re.run x).head? = some m := by
  induction s with
  | nil => exact ⟨[], [], rfl, by simpa [find_nil] using h⟩
  | cons c t ih =>
    rw [find_cons] at h
    cases hh : (re.run (c :: t)).head? with
    | some m₁ =>
      rw [hh] at h
      exact ⟨[], c :: t, rfl, by simpa [hh] using h⟩
    | none =>
      rw [hh] at h
      obtain ⟨pre, x, ht, hx⟩ := ih (by simpa using h)
      exact ⟨c :: pre, x, by simp [ht], hx⟩

theorem find_skip (pre x : Str) (hpre : ∀ c ∈ pre, foldEq 'g' c = false) :
    GITHUB_REGEXP.find (pre ++ x) = GITHUB_REGEXP.find x := by
  induction pre with
  | nil => rfl
  | cons c pre ih =>
    have hc := hpre c (List.mem_cons_self _ _)
    have hnone : hostK "github.com/".toList (c :: (pre ++ x)) = none := by
      show hostK ('g' :: "ithub.com/".toList) (c :: (pre ++ x)) = none
      simp [hostK, hc]
    rw [List.cons_append, find_cons, GITHUB_REGEXP, head_host, hnone, ← GITHUB_REGEXP,
      Option.none_or]
    exact ih (fun y hy => hpre y (List.mem_cons_of_mem _ hy))

theorem find_host (y : Str) (m : Match) (h : tailK y = some m) :
    GITHUB_REGEXP.find ("github.com/".toList ++ y)
      = some ⟨"github.com/".toList ++ m.consumed, m.rest, m.caps⟩ := by
  have hself := hostK_self "github.com/".toList y (by decide)
  rw [h] at hself
  show GITHUB_REGEXP.find ('g' :: ("ithub.com/".toList ++ y)) = _
  rw [find_cons, GITHUB_REGEXP, head_host]
  have hcons : 'g' :: ("ithub.com/".toList ++ y) = "github.com/".toList ++ y := rfl
  rw [hcons, hself]
  rfl

theorem capture_two (whole rest owner name : Str) :
    (⟨whole, rest, [(1, owner), (2, name)]⟩ : Match).capture 1 = owner
      ∧ (⟨whole, rest, [(1, owner), (2, name)]⟩ : Match).capture 2 = name := by
  simp [Match.capture, List.lookup]

/-- C5: for a non-empty owner and a non-empty name without characters of the
class `[\s/?]`, matching the link pattern against
`https://github.com/owner/name/rest` gives the match `github.com/owner/name/`
with the groups `owner` and `name`, so the repository built from the groups is
`{owner, name}` whatever `rest` is. -/
theorem subpath_link (owner name rest : Str) (ho : owner ≠ []) (hn : name ≠ [])
    (hoc : ∀ c ∈ owner, c ∉ delimClass) (hnc : ∀ c ∈ name, c ∉ delimClass) :
    GITHUB_REGEXP.FindStringSubmatch
        ("https://github.com/".toList ++ owner ++ "/".toList ++ name ++ "/".toList ++ rest)
      = ["github.com/".toList ++ owner ++ "/".toList ++ name ++ "/".toList, owner, name]
    ∧ (⟨(GITHUB_REGEXP.FindStringSubmatch
          ("https://github.com/".toList ++ owner ++ "/".toList ++ name ++ "/".toList
            ++ rest)).getD 1 [],
        (GITHUB_REGEXP.FindStringSubmatch
          ("https://github.com/".toList ++ owner ++ "/".toList ++ name ++ "/".toList
            ++ rest)).getD 2 []⟩ : GithubRepo) = ⟨owner, name⟩ := by
  have hnl : ∀ a : Str, (∀ c ∈ a, c ∉ delimClass) → '\n' ∉ a :=
    fun a ha hmem => ha _ hmem newline_mem_delimClass
  have hname : nameK (name ++ '/' :: rest) = some ⟨name ++ ['/'], rest, [(2, name)]⟩ := by
    have h := lazyScan_append 2 termK [] name ('/' :: rest) ⟨['/'], rest, []⟩ hn (hnl name hnc)
      (fun c hc t => (termK_cons_none c t).2 (hnc c hc)) (by simp [termK, slash_mem_delimClass])
    simpa [nameK, Match.andThen] using h
  have htail : tailK (owner ++ '/' :: (name ++ '/' :: rest))
      = some ⟨owner ++ '/' :: (name ++ ['/']), rest, [(1, owner), (2, name)]⟩ := by
    have h := lazyScan_append 1 slashK [] owner ('/' :: (name ++ '/' :: rest))
      ⟨'/' :: (name ++ ['/']), rest, [(2, name)]⟩ ho (hnl owner hoc)
      (fun c hc t => by
        have hne : c ≠ '/' := fun hEq => hoc c hc (hEq ▸ slash_mem_delimClass)
        simp [slashK, hne])
      (by simp [slashK, hname, Match.andThen])
    simpa [tailK, Match.andThen] using h
  have hstr : "https://github.com/".toList ++ owner ++ "/".toList ++ name ++ "/".toList ++ rest
      = "https://".toList ++ ("github.com/".toList ++ (owner ++ '/' :: (name ++ '/' :: rest))) := by
    simp [String.toList]
  have hfind := find_host _ _ htail
  have hres : GITHUB_REGEXP.FindStringSubmatch
        ("https://github.com/".toList ++ owner ++ "/".toList ++ name ++ "/".toList ++ rest)
      = ["github.com/".toList ++ owner ++ "/".toList ++ name ++ "/".toList, owner, name] := by
    rw [hstr, Regex.FindStringSubmatch, find_skip _ _ (by decide), hfind]
    simp [(capture_two _ _ _ _).1, (capture_two _ _ _ _).2, String.toList]
  exact ⟨hres, by rw [hres]; rfl⟩

/-- C5 at the link `https://github.com/avelino/awesome-go/issues`. -/
theorem subpath_link_witness :
    GITHUB_REGEXP.FindStringSubmatch
        ("https://github.com/".toList ++ "avelino".toList ++ "/".toList ++ "awesome-go".toList
          ++ "/".toList ++ "issues".toList)
      = ["github.com/".toList ++ "avelino".toList ++ "/".toList ++ "awesome-go".toList
          ++ "/".toList, "avelino".toList, "awesome-go".toList]
    ∧ (⟨(GITHUB_REGEXP.FindStringSubmatch
          ("https://github.com/".toList ++ "avelino".toList ++ "/".toList
            ++ "awesome-go".toList ++ "/".toList ++ "issues".toList)).getD 1 [],
        (GITHUB_REGEXP.FindStringSubmatch
          ("https://github.com/".toList ++ "avelino".toList ++ "/".toList
            ++ "awesome-go".toList ++ "/".toList ++ "issues".toList)).getD 2 []⟩ : GithubRepo)
      = ⟨"avelino".toList, "awesome-go".toList⟩ :=
  subpath_link "avelino".toList "awesome-go".toList "issues".toList (by decide) (by decide)
    (by decide) (by decide)

/-- C6, as stated, fails: the groups are `.+?`, so a captured owner can contain
a space or a question mark, and a captured name can start with a slash; a
captured name can also contain white space outside `\s`, such as a vertical
tab. -/
theorem captured_shape_counterexample :
    GITHUB_REGEXP.FindStringSubmatch "https://github.com/a b/c".toList
        = ["github.com/a b/c".toList, "a b".toList, "c".toList]
      ∧ ' ' ∈ "a b".toList
      ∧ GITHUB_REGEXP.FindStringSubmatch "https://github.com/a?b//c".toList
        = ["github.com/a?b//c".toList, "a?b".toList, "/c".toList]
      ∧ '?' ∈ "a?b".toList ∧ '/' ∈ "/c".toList
      ∧ GITHUB_REGEXP.FindStringSubmatch "https://github.com/a/b\x0bc d".toList
        = ["github.com/a/b\x0bc ".toList, "a".toList, "b\x0bc".toList]
      ∧ isSpace '\x0b' = true ∧ '\x0b' ∈ "b\x0bc".toList := by
  decide

/-- C6, amended: when the link pattern matches, the input contains, case-
insensitively, `github.com/`, then the captured owner, a slash, the captured
name, and then a character of `delimClass` or the end of the input, where
`delimClass` is the class `[\s/?]` of the pattern: tab, line feed, form feed,
carriage return, space, `/` and `?`, and no other white space.  Owner and name
are non-empty and free of line feeds; no character of the owner after its first
is a slash and no character of the name after its first is in `delimClass`.
The pattern yields nothing when the input has no occurrence of `github.com/`
(case-insensitively) followed by a non-empty owner, a slash and a non-empty
name. -/
theorem captured_shape (s : Str) :
    (GITHUB_REGEXP.FindStringSubmatch s = []
      ∨ ∃ pre host owner name term post,
          s = pre ++ host ++ owner ++ '/' :: name ++ term ++ post
          ∧ host.map Char.toLower = "github.com/".toList
          ∧ GITHUB_REGEXP.FindStringSubmatch s
              = [host ++ owner ++ '/' :: name ++ term, owner, name]
          ∧ owner ≠ [] ∧ name ≠ [] ∧ '\n' ∉ owner ∧ '\n' ∉ name
          ∧ '/' ∉ owner.tail ∧ (∀ c ∈ name.tail, c ∉ delimClass)
          ∧ ((term = [] ∧ post = []) ∨ ∃ c ∈ delimClass, term = [c]))
    ∧ ((¬ ∃ pre host owner name post,
          s = pre ++ host ++ owner ++ '/' :: name ++ post
          ∧ host.map Char.toLower = "github.com/".toList ∧ owner ≠ [] ∧ name ≠ [])
        → GITHUB_REGEXP.FindStringSubmatch s = []) := by
  have key : GITHUB_REGEXP.FindStringSubmatch s = []
      ∨ ∃ pre host owner name term post,
          s = pre ++ host ++ owner ++ '/' :: name ++ term ++ post
          ∧ host.map Char.toLower = "github.com/".toList
          ∧ GITHUB_REGEXP.FindStringSubmatch s
              = [host ++ owner ++ '/' :: name ++ term, owner, name]
          ∧ owner ≠ [] ∧ name ≠ [] ∧ '\n' ∉ owner ∧ '\n' ∉ name
          ∧ '/' ∉ owner.tail ∧ (∀ c ∈ name.tail, c ∉ delimClass)
          ∧ ((term = [] ∧ post = []) ∨ ∃ c ∈ delimClass, term = [c]) := by
    cases hfind : GITHUB_REGEXP.find s with
    | none => exact Or.inl (by simp [Regex.FindStringSubmatch, hfind])
    | some m =>
      right
      obtain ⟨pre, x, hs, hx⟩ := find_some _ _ _ hfind
      rw [GITHUB_REGEXP, head_host] at hx
      obtain ⟨host, y, m₂, hxy, hhost, htail, h1, h2, h3⟩ :=
        hostK_some _ x m (fun _ hc => hc) hx
      obtain ⟨owner, name, term, ho, hn, hy, hcons, hcaps, hnl₁, hnl₂, hot, hnt, hterm⟩ :=
        tailK_some y m₂ htail
      refine ⟨pre, host, owner, name, term, m₂.rest, ?_, hhost, ?_, ho, hn, hnl₁, hnl₂, hot,
        hnt, hterm⟩
      · rw [hs, hxy, hy]
        simp
      · have hm : m = ⟨host ++ (owner ++ '/' :: name ++ term), m₂.rest,
            [(1, owner), (2, name)]⟩ := by
          cases m
          simp only [Match.mk.injEq]
          exact ⟨by rw [← hcons]; exact h1, h2, by rw [← hcaps]; exact h3⟩
        simp only [Regex.FindStringSubmatch, hfind, hm, (capture_two _ _ _ _).1,
          (capture_two _ _ _ _).2]
        simp
  refine ⟨key, fun hno => ?_⟩
  rcases key with h | ⟨pre, host, owner, name, term, post, hs, hhost, _, ho, hn, _⟩
  · exact h
  · exact absurd ⟨pre, host, owner, name, term ++ post, by simp [hs], hhost, ho, hn⟩ hno

end GopherScrape
